import Mathlib

/-!
Verification of the byte-rate limiter exposed by `src/rocks-sys/rocks/rate_limiter.cc`.

The file under `src/` is only the C lifecycle shim (`rocks_ratelimiter_create`,
`rocks_ratelimiter_destroy`); the limiter algorithm itself (`NewGenericRateLimiter`)
is not part of the sources, so the limiter core below is modelled from the design
document: a token bucket with `available_bytes` replenished once per refill period,
three FIFO wait queues (LOW, MEDIUM, HIGH), a fairness carve-out that grants one
LOW waiter on every `fairness`-th refill cycle, and cumulative statistics counters.
The lazy refill (triggered by a `Request` call observing an elapsed period) is
modelled as its own transition `Op.refill` of the state machine.
-/

/-- Priority levels of a request, ordered LOW < MEDIUM < HIGH. -/
inductive Priority where
  | low
  | medium
  | high
deriving DecidableEq

/-- Errors reported synchronously to the caller. -/
inductive RlError where
  | invalidConfiguration
  | requestTooLarge
deriving DecidableEq

/-- A blocked (or just-granted) caller: requested byte count, priority,
`granted` flag, and an id recording its enqueue order (ids are handed out
from a global counter, so within one priority smaller id = enqueued earlier). -/
structure Waiter where
  id : Nat
  bytes : Nat
  priority : Priority
  granted : Bool
deriving DecidableEq

/-- Modelled from the spec: the rate limiter state owned by `GenericRateLimiter`
(not present under `src/`): configuration, token bucket, per-priority FIFO
queues, statistics, plus the refill-cycle counter driving the fairness rule. -/
structure RateLimiter where
  rate_bytes_per_sec : Int
  refill_period_us : Int
  fairness : Int
  refill_bytes_per_period : Int
  available_bytes : Int
  next_refill_time : Int
  queueHigh : List Waiter
  queueMedium : List Waiter
  queueLow : List Waiter
  total_bytes_through : Nat
  total_requests : Nat
  refill_count : Nat
  next_id : Nat
deriving DecidableEq

/-- `refill_bytes_per_period = rate_bytes_per_sec * refill_period_us / 1_000_000`. -/
def calcRefillBytesPerPeriod (rate refill_period : Int) : Int :=
  rate * refill_period / 1000000

/-- Modelled from the spec: `Create(rate_bytes_per_sec, refill_period_us, fairness)`
(the constructor behind `NewGenericRateLimiter`, not present under `src/`).
Validates all three parameters positive, fails with `InvalidConfiguration`
otherwise; on success the bucket starts fully topped up and the first refill is
scheduled at `now + refill_period_us`. -/
def create (rate refill_period fair now : Int) : Except RlError RateLimiter :=
  if 0 < rate ∧ 0 < refill_period ∧ 0 < fair then
    .ok
      { rate_bytes_per_sec := rate
        refill_period_us := refill_period
        fairness := fair
        refill_bytes_per_period := calcRefillBytesPerPeriod rate refill_period
        available_bytes := calcRefillBytesPerPeriod rate refill_period
        next_refill_time := now + refill_period
        queueHigh := []
        queueMedium := []
        queueLow := []
        total_bytes_through := 0
        total_requests := 0
        refill_count := 0
        next_id := 0 }
  else
    .error .invalidConfiguration

/-- `GetSingleBurstBytes()`: the current per-period byte ceiling. -/
def getSingleBurstBytes (st : RateLimiter) : Int :=
  st.refill_bytes_per_period

/-- `GetTotalBytesThrough()`. -/
def getTotalBytesThrough (st : RateLimiter) : Nat :=
  st.total_bytes_through

/-- `GetTotalRequests()`. -/
def getTotalRequests (st : RateLimiter) : Nat :=
  st.total_requests

/-- Modelled from the spec: `SetBytesPerSecond(new_rate)` fails with
`InvalidConfiguration` if `new_rate <= 0`, otherwise updates the rate and
recomputes `refill_bytes_per_period`. -/
def setBytesPerSecond (st : RateLimiter) (new_rate : Int) : Except RlError RateLimiter :=
  if 0 < new_rate then
    .ok
      { st with
        rate_bytes_per_sec := new_rate
        refill_bytes_per_period := calcRefillBytesPerPeriod new_rate st.refill_period_us }
  else
    .error .invalidConfiguration

/-- The queue of a priority level. -/
def queueOf (st : RateLimiter) : Priority → List Waiter
  | .high => st.queueHigh
  | .medium => st.queueMedium
  | .low => st.queueLow

/-- True when no waiter of priority `p` or higher is already queued
(the condition for an immediate grant of a priority-`p` request). -/
def higherOrEqualQueuesEmpty (st : RateLimiter) : Priority → Bool
  | .high => st.queueHigh.isEmpty
  | .medium => st.queueHigh.isEmpty && st.queueMedium.isEmpty
  | .low => st.queueHigh.isEmpty && st.queueMedium.isEmpty && st.queueLow.isEmpty

/-- Append a waiter at the tail of its priority's FIFO. -/
def enqueue (st : RateLimiter) (w : Waiter) : RateLimiter :=
  match w.priority with
  | .high => { st with queueHigh := st.queueHigh ++ [w] }
  | .medium => { st with queueMedium := st.queueMedium ++ [w] }
  | .low => { st with queueLow := st.queueLow ++ [w] }

/-- Record a list of grants in the cumulative statistics counters. -/
def applyStats (st : RateLimiter) (evs : List Waiter) : RateLimiter :=
  { st with
    total_bytes_through := st.total_bytes_through + (evs.map (·.bytes)).sum
    total_requests := st.total_requests + evs.length }

/-- Modelled from the spec: `Request(bytes, priority)`. Fails with
`RequestTooLarge` when `bytes` exceeds the single-burst ceiling; grants
immediately (updating the bucket and the statistics) when the bucket has enough
bytes and no higher-or-equal priority waiter is queued ahead; otherwise the
caller is enqueued at the tail of its priority's FIFO. Returns the grant
events produced by the call. -/
def request (st : RateLimiter) (bytes : Nat) (p : Priority) :
    Except RlError (List Waiter × RateLimiter) :=
  if getSingleBurstBytes st < (bytes : Int) then
    .error .requestTooLarge
  else if (bytes : Int) ≤ st.available_bytes ∧ higherOrEqualQueuesEmpty st p then
    let w : Waiter := { id := st.next_id, bytes := bytes, priority := p, granted := true }
    .ok ([w],
      applyStats
        { st with
          available_bytes := st.available_bytes - (bytes : Int)
          next_id := st.next_id + 1 } [w])
  else
    .ok ([],
      enqueue { st with next_id := st.next_id + 1 }
        { id := st.next_id, bytes := bytes, priority := p, granted := false })

/-- Mark a waiter granted (the grant pops it from its queue and sets the flag). -/
def setGranted (w : Waiter) : Waiter :=
  { w with granted := true }

/-- Drain one FIFO: while the balance permits (`0 < avail`), pop the front
waiter and decrement the balance by its full requested byte count (possibly
driving the balance negative). Returns the grants, the remaining queue and the
new balance. -/
def drainQueue (avail : Int) : List Waiter → List Waiter × List Waiter × Int
  | [] => ([], [], avail)
  | w :: ws =>
    if 0 < avail then
      let r := drainQueue (avail - (w.bytes : Int)) ws
      (setGranted w :: r.1, r.2.1, r.2.2)
    else
      ([], w :: ws, avail)

/-- The fairness carve-out: on a fairness boundary, grant one LOW waiter ahead
of the higher-priority queues (when the balance permits). -/
def carveOut (fair : Bool) (avail : Int) : List Waiter → List Waiter × List Waiter × Int
  | [] => ([], [], avail)
  | w :: ws =>
    if fair ∧ 0 < avail then
      ([setGranted w], ws, avail - (w.bytes : Int))
    else
      ([], w :: ws, avail)

/-- The token advance of a refill: `available_bytes` grows by
`refill_bytes_per_period`, capped at one burst. -/
def refillAdvance (st : RateLimiter) : Int :=
  min (st.available_bytes + st.refill_bytes_per_period) st.refill_bytes_per_period

/-- True on every `fairness`-th refill cycle: the carve-out boundary. -/
def fairBoundary (st : RateLimiter) : Bool :=
  (st.refill_count + 1) % st.fairness.toNat == 0

/-- Stage 1 of a refill's queue drain: the fairness carve-out on the LOW queue. -/
def refillCarve (st : RateLimiter) : List Waiter × List Waiter × Int :=
  carveOut (fairBoundary st) (refillAdvance st) st.queueLow

/-- Stage 2: drain the HIGH queue. -/
def refillHigh (st : RateLimiter) : List Waiter × List Waiter × Int :=
  drainQueue (refillCarve st).2.2 st.queueHigh

/-- Stage 3: drain the MEDIUM queue. -/
def refillMedium (st : RateLimiter) : List Waiter × List Waiter × Int :=
  drainQueue (refillHigh st).2.2 st.queueMedium

/-- Stage 4: drain what the carve-out left of the LOW queue. -/
def refillLow (st : RateLimiter) : List Waiter × List Waiter × Int :=
  drainQueue (refillMedium st).2.2 (refillCarve st).2.1

/-- All grants of one refill step, in grant order. -/
def refillEvents (st : RateLimiter) : List Waiter :=
  (refillCarve st).1 ++ (refillHigh st).1 ++ (refillMedium st).1 ++ (refillLow st).1

/-- Modelled from the spec: one refill step (triggered lazily by a `Request`
call observing `now >= next_refill_time`). Advances the bucket (capped at one
burst), recomputes `next_refill_time`, bumps the refill-cycle counter, applies
the fairness carve-out on every `fairness`-th cycle, then drains HIGH, MEDIUM
and LOW in that order while the balance permits; grants update the statistics
atomically. Returns the grant events of this step. -/
def refillStep (st : RateLimiter) (now : Int) : List Waiter × RateLimiter :=
  (refillEvents st,
    applyStats
      { st with
        available_bytes := (refillLow st).2.2
        next_refill_time := now + st.refill_period_us
        refill_count := st.refill_count + 1
        queueHigh := (refillHigh st).2.1
        queueMedium := (refillMedium st).2.1
        queueLow := (refillLow st).2.1 } (refillEvents st))

/-- An operation applied to a live limiter. -/
inductive Op where
  | req (bytes : Nat) (p : Priority)
  | setRate (r : Int)
  | refill (now : Int)
deriving DecidableEq

/-- One step of the limiter state machine; a failed call (synchronous error
return) leaves the state unchanged and produces no grant. -/
def step (st : RateLimiter) : Op → List Waiter × RateLimiter
  | .req bytes p =>
    match request st bytes p with
    | .error _ => ([], st)
    | .ok r => r
  | .setRate r =>
    ([],
      match setBytesPerSecond st r with
      | .error _ => st
      | .ok st' => st')
  | .refill now => refillStep st now

/-- Run a sequence of operations, collecting the grant events in order. -/
def exec (st : RateLimiter) : List Op → List Waiter × RateLimiter
  | [] => ([], st)
  | op :: ops =>
    let r := step st op
    let r2 := exec r.2 ops
    (r.1 ++ r2.1, r2.2)

/- The C shim from `src/rocks-sys/rocks/rate_limiter.cc`. -/

/-- The wrapper handle `rocks_ratelimiter_t`: it holds a (possibly null)
pointer to the underlying limiter. -/
structure rocks_ratelimiter_t where
  rep : Option RateLimiter

/-- `rocks_ratelimiter_create`: allocates a wrapper whose `rep` is the limiter
built by `NewGenericRateLimiter`. -/
def rocks_ratelimiter_create (rate refill_period fair now : Int) : rocks_ratelimiter_t :=
  { rep := (create rate refill_period fair now).toOption }

/-- Deallocation events produced by `rocks_ratelimiter_destroy`. -/
inductive FreeEvent where
  | freeRep
  | freeHandle
deriving DecidableEq

/-- `rocks_ratelimiter_destroy`: deletes `rep` only when it is non-null, then
always deletes the wrapper handle itself. The returned list records the
deallocations in program order. -/
def rocks_ratelimiter_destroy (limiter : rocks_ratelimiter_t) : List FreeEvent :=
  (if limiter.rep.isSome then [.freeRep] else []) ++ [.freeHandle]

/-! ## Basic lemmas about the queue operations -/

/-- `enqueue` appends to exactly the queue of the waiter's priority. -/
theorem queueOf_enqueue (st : RateLimiter) (w : Waiter) (p : Priority) :
    queueOf (enqueue st w) p =
      if w.priority = p then queueOf st p ++ [w] else queueOf st p := by
  cases hw : w.priority <;> cases p <;> simp [enqueue, queueOf, hw]

/-- `enqueue` only touches the queues. -/
theorem enqueue_fields (st : RateLimiter) (w : Waiter) :
    (enqueue st w).next_id = st.next_id ∧
    (enqueue st w).total_bytes_through = st.total_bytes_through ∧
    (enqueue st w).total_requests = st.total_requests ∧
    (enqueue st w).available_bytes = st.available_bytes ∧
    (enqueue st w).refill_bytes_per_period = st.refill_bytes_per_period ∧
    (enqueue st w).fairness = st.fairness ∧
    (enqueue st w).refill_count = st.refill_count := by
  cases hw : w.priority <;> simp [enqueue, hw]

/-- `drainQueue` grants a front segment of the queue in order, marking each
grant and decrementing the balance by the total granted bytes. -/
theorem drainQueue_eq (avail : Int) (q : List Waiter) :
    ∃ g, q = g ++ (drainQueue avail q).2.1 ∧
      (drainQueue avail q).1 = g.map setGranted ∧
      (drainQueue avail q).2.2 = avail - ((g.map (·.bytes)).sum : Nat) := by
  induction q generalizing avail with
  | nil => exact ⟨[], by simp [drainQueue]⟩
  | cons w ws ih =>
    by_cases h : 0 < avail
    · obtain ⟨g, hq, hev, ha⟩ := ih (avail - (w.bytes : Int))
      refine ⟨w :: g, ?_, ?_, ?_⟩
      · simpa [drainQueue, h] using hq
      · simp [drainQueue, h, hev]
      · simp only [drainQueue, if_pos h]
        rw [ha]
        push_cast [List.map_cons, List.sum_cons]
        ring
    · exact ⟨[], by simp [drainQueue, h]⟩

/-- The balance never increases across `drainQueue`. -/
theorem drainQueue_le (avail : Int) (q : List Waiter) :
    (drainQueue avail q).2.2 ≤ avail := by
  obtain ⟨g, _, _, ha⟩ := drainQueue_eq avail q
  omega

/-- With all queued requests bounded by one burst, draining from a balance
above `-burst` leaves the balance above `-burst` (each grant is decided at a
positive balance and debts are bounded by one request). -/
theorem drainQueue_lb (burst avail : Int) (q : List Waiter)
    (hb : ∀ w ∈ q, (w.bytes : Int) ≤ burst) (h0 : -burst < avail) :
    -burst < (drainQueue avail q).2.2 := by
  induction q generalizing avail with
  | nil => simpa [drainQueue] using h0
  | cons w ws ih =>
    by_cases h : 0 < avail
    · have hw : (w.bytes : Int) ≤ burst := hb w (by simp)
      have : -burst < avail - (w.bytes : Int) := by omega
      have := ih (avail - (w.bytes : Int)) (fun x hx => hb x (by simp [hx])) this
      simpa [drainQueue, h] using this
    · simpa [drainQueue, h] using h0

/-- `carveOut` grants at most the front waiter, marking it and decrementing
the balance by its bytes. -/
theorem carveOut_eq (fair : Bool) (avail : Int) (q : List Waiter) :
    ∃ g, q = g ++ (carveOut fair avail q).2.1 ∧
      (carveOut fair avail q).1 = g.map setGranted ∧
      (carveOut fair avail q).2.2 = avail - ((g.map (·.bytes)).sum : Nat) ∧
      g.length ≤ 1 := by
  cases q with
  | nil => exact ⟨[], by simp [carveOut]⟩
  | cons w ws =>
    by_cases h : fair = true ∧ 0 < avail
    · exact ⟨[w], by simp [carveOut, h]⟩
    · have hc : carveOut fair avail (w :: ws) = ([], w :: ws, avail) := by
        simp only [carveOut, if_neg h]
      exact ⟨[], by simp [hc]⟩

/-- The balance never increases across `carveOut`. -/
theorem carveOut_le (fair : Bool) (avail : Int) (q : List Waiter) :
    (carveOut fair avail q).2.2 ≤ avail := by
  obtain ⟨g, _, _, ha, _⟩ := carveOut_eq fair avail q
  omega

/-- Bounded-debt preservation for `carveOut`. -/
theorem carveOut_lb (burst : Int) (fair : Bool) (avail : Int) (q : List Waiter)
    (hb : ∀ w ∈ q, (w.bytes : Int) ≤ burst) (h0 : -burst < avail) :
    -burst < (carveOut fair avail q).2.2 := by
  cases q with
  | nil => simpa [carveOut] using h0
  | cons w ws =>
    by_cases h : fair = true ∧ 0 < avail
    · have hw : (w.bytes : Int) ≤ burst := hb w (by simp)
      have : -burst < avail - (w.bytes : Int) := by omega
      simpa [carveOut, h] using this
    · have hc : carveOut fair avail (w :: ws) = ([], w :: ws, avail) := by
        simp only [carveOut, if_neg h]
      rw [hc]
      exact h0

/-! ## Concrete sample states used in closed instantiations -/

/-- The limiter produced by `Create(1000, 100000, 10)` at time `0`
(single burst = 100 bytes per period): the spec's concrete scenario. -/
def sampleLimiter : RateLimiter :=
  { rate_bytes_per_sec := 1000
    refill_period_us := 100000
    fairness := 10
    refill_bytes_per_period := 100
    available_bytes := 100
    next_refill_time := 100000
    queueHigh := []
    queueMedium := []
    queueLow := []
    total_bytes_through := 0
    total_requests := 0
    refill_count := 0
    next_id := 0 }

/-- The limiter produced by `Create(2000000, 1, 2)` at time `0`
(single burst = 2 bytes per period, fairness weight 2). -/
def exInit : RateLimiter :=
  { rate_bytes_per_sec := 2000000
    refill_period_us := 1
    fairness := 2
    refill_bytes_per_period := 2
    available_bytes := 2
    next_refill_time := 1
    queueHigh := []
    queueMedium := []
    queueLow := []
    total_bytes_through := 0
    total_requests := 0
    refill_count := 0
    next_id := 0 }

/-! ## C1: configuration validation -/

/-- C1: `Create` succeeds exactly when rate, refill period and fairness are all
positive, storing the three values unclamped, and fails synchronously with
`InvalidConfiguration` when any of them is non-positive; `SetBytesPerSecond`
fails synchronously with `InvalidConfiguration` exactly when the new rate is
non-positive and stores the new rate unclamped on success. -/
theorem c1_configuration_validation :
    (∀ rate refill_period fair now : Int,
      (0 < rate ∧ 0 < refill_period ∧ 0 < fair →
        ∃ st, create rate refill_period fair now = .ok st ∧
          st.rate_bytes_per_sec = rate ∧ st.refill_period_us = refill_period ∧
          st.fairness = fair) ∧
      (¬(0 < rate ∧ 0 < refill_period ∧ 0 < fair) →
        create rate refill_period fair now = .error .invalidConfiguration)) ∧
    (∀ (st : RateLimiter) (new_rate : Int),
      (new_rate ≤ 0 → setBytesPerSecond st new_rate = .error .invalidConfiguration) ∧
      (0 < new_rate → ∃ st', setBytesPerSecond st new_rate = .ok st' ∧
        st'.rate_bytes_per_sec = new_rate)) := by
  refine ⟨fun rate rp fair now => ⟨fun h => ?_, fun h => ?_⟩,
    fun st nr => ⟨fun h => ?_, fun h => ?_⟩⟩
  · refine ⟨⟨rate, rp, fair, calcRefillBytesPerPeriod rate rp, calcRefillBytesPerPeriod rate rp,
      now + rp, [], [], [], 0, 0, 0, 0⟩, ?_, rfl, rfl, rfl⟩
    simp [create, h]
  · simp [create, h]
  · simp [setBytesPerSecond, not_lt.mpr h]
  · refine ⟨⟨nr, st.refill_period_us, st.fairness,
      calcRefillBytesPerPeriod nr st.refill_period_us, st.available_bytes,
      st.next_refill_time, st.queueHigh, st.queueMedium, st.queueLow,
      st.total_bytes_through, st.total_requests, st.refill_count, st.next_id⟩, ?_, rfl⟩
    simp [setBytesPerSecond, h]

/-- Closed instantiation of `c1_configuration_validation`. -/
theorem c1_configuration_validation_witness :
    (∃ st, create 1000 100000 10 0 = .ok st ∧
      st.rate_bytes_per_sec = 1000 ∧ st.refill_period_us = 100000 ∧ st.fairness = 10) ∧
    create (-5) 100000 10 0 = .error .invalidConfiguration ∧
    setBytesPerSecond sampleLimiter 0 = .error .invalidConfiguration ∧
    (∃ st', setBytesPerSecond sampleLimiter 2000 = .ok st' ∧
      st'.rate_bytes_per_sec = 2000) :=
  ⟨(c1_configuration_validation.1 1000 100000 10 0).1 (by decide),
   (c1_configuration_validation.1 (-5) 100000 10 0).2 (by decide),
   (c1_configuration_validation.2 sampleLimiter 0).1 (by decide),
   (c1_configuration_validation.2 sampleLimiter 2000).2 (by decide)⟩

/-! ## C2: single burst bytes -/

/-- C2: for every valid configuration, `GetSingleBurstBytes()` equals
`rate_bytes_per_sec * refill_period_us / 1_000_000` immediately after `Create`
and, with the then-current rate, immediately after any successful
`SetBytesPerSecond`. -/
theorem c2_single_burst_bytes :
    (∀ (rate refill_period fair now : Int) (st : RateLimiter),
      create rate refill_period fair now = .ok st →
      getSingleBurstBytes st = rate * refill_period / 1000000) ∧
    (∀ (st : RateLimiter) (new_rate : Int) (st' : RateLimiter),
      setBytesPerSecond st new_rate = .ok st' →
      getSingleBurstBytes st' = new_rate * st.refill_period_us / 1000000) := by
  constructor
  · intro rate rp fair now st h
    unfold create at h
    split at h
    · injection h with h
      subst h
      rfl
    · exact Except.noConfusion h
  · intro st nr st' h
    unfold setBytesPerSecond at h
    split at h
    · injection h with h
      subst h
      rfl
    · exact Except.noConfusion h

/-- Closed instantiation of `c2_single_burst_bytes`. -/
theorem c2_single_burst_bytes_witness :
    create 1000 100000 10 0 = .ok sampleLimiter ∧
    getSingleBurstBytes sampleLimiter = 1000 * 100000 / 1000000 ∧
    setBytesPerSecond sampleLimiter 2000 =
      .ok { sampleLimiter with rate_bytes_per_sec := 2000, refill_bytes_per_period := 200 } ∧
    getSingleBurstBytes
      { sampleLimiter with rate_bytes_per_sec := 2000, refill_bytes_per_period := 200 } =
      2000 * sampleLimiter.refill_period_us / 1000000 :=
  ⟨by rfl, c2_single_burst_bytes.1 1000 100000 10 0 sampleLimiter (by rfl),
   by rfl,
   c2_single_burst_bytes.2 sampleLimiter 2000
     { sampleLimiter with rate_bytes_per_sec := 2000, refill_bytes_per_period := 200 }
     (by rfl)⟩

/-! ## C3: oversized requests fail synchronously -/

/-- C3: a `Request` whose byte count exceeds the current single-burst ceiling
fails synchronously with `RequestTooLarge`: the call returns an error, no
waiter is enqueued and the limiter state is unchanged (the caller is never
blocked). -/
theorem c3_request_too_large (st : RateLimiter) (bytes : Nat) (p : Priority)
    (h : getSingleBurstBytes st < (bytes : Int)) :
    request st bytes p = .error .requestTooLarge ∧
    step st (.req bytes p) = ([], st) := by
  have hr : request st bytes p = .error .requestTooLarge := by
    simp [request, h]
  exact ⟨hr, by simp [step, hr]⟩

/-- Closed instantiation of `c3_request_too_large`. -/
theorem c3_request_too_large_witness :
    getSingleBurstBytes sampleLimiter < ((101 : Nat) : Int) ∧
    request sampleLimiter 101 Priority.low = .error .requestTooLarge ∧
    step sampleLimiter (.req 101 Priority.low) = ([], sampleLimiter) :=
  ⟨by decide,
   (c3_request_too_large sampleLimiter 101 Priority.low (by decide)).1,
   (c3_request_too_large sampleLimiter 101 Priority.low (by decide)).2⟩

/-! ## C10: destruction of the wrapper handle -/

/-- C10: `rocks_ratelimiter_destroy` deletes the underlying rate limiter
exactly when the handle's `rep` pointer is non-null, and deallocates the
wrapper handle itself exactly once in every case. -/
theorem c10_destroy_frees_handle_once (limiter : rocks_ratelimiter_t) :
    (FreeEvent.freeRep ∈ rocks_ratelimiter_destroy limiter ↔ limiter.rep.isSome) ∧
    (rocks_ratelimiter_destroy limiter).count FreeEvent.freeRep =
      (if limiter.rep.isSome then 1 else 0) ∧
    (rocks_ratelimiter_destroy limiter).count FreeEvent.freeHandle = 1 := by
  obtain ⟨rep⟩ := limiter
  cases rep <;> simp [rocks_ratelimiter_destroy]

/-! ## Statistics lemmas -/

/-- Each step adds exactly its granted bytes and grant count to the
cumulative statistics. -/
theorem step_stats (st : RateLimiter) (op : Op) :
    (step st op).2.total_bytes_through
      = st.total_bytes_through + ((step st op).1.map (·.bytes)).sum ∧
    (step st op).2.total_requests = st.total_requests + (step st op).1.length := by
  cases op with
  | req bytes p =>
    by_cases h1 : getSingleBurstBytes st < (bytes : Int)
    · simp [step, request, h1]
    · by_cases h2 : (bytes : Int) ≤ st.available_bytes ∧ higherOrEqualQueuesEmpty st p = true
      · simp [step, request, h1, h2, applyStats]
      · have he := enqueue_fields
          { st with next_id := st.next_id + 1 }
          { id := st.next_id, bytes := bytes, priority := p, granted := false }
        simp [step, request, h1, h2, he.2.1, he.2.2.1]
  | setRate r =>
    by_cases h : 0 < r
    · simp [step, setBytesPerSecond, h]
    · simp [step, setBytesPerSecond, h]
  | refill now => simp [step, refillStep, applyStats]

/-- Over any run, the statistics grow by exactly the granted bytes and the
number of grants. -/
theorem exec_stats (ops : List Op) (st : RateLimiter) :
    (exec st ops).2.total_bytes_through
      = st.total_bytes_through + ((exec st ops).1.map (·.bytes)).sum ∧
    (exec st ops).2.total_requests = st.total_requests + (exec st ops).1.length := by
  induction ops generalizing st with
  | nil => simp [exec]
  | cons op ops ih =>
    have h1 := step_stats st op
    have h2 := ih (step st op).2
    simp only [exec, List.map_append, List.sum_append, List.length_append]
    omega

/-! ## C4: exact statistics -/

/-- C4: starting from a freshly created limiter, after any sequence of
operations `GetTotalBytesThrough()` equals the exact sum of the byte counts of
the granted requests and `GetTotalRequests()` equals their number. -/
theorem c4_statistics_exact (rate refill_period fair now : Int) (st0 : RateLimiter)
    (ops : List Op) (h : create rate refill_period fair now = .ok st0) :
    getTotalBytesThrough (exec st0 ops).2 = ((exec st0 ops).1.map (·.bytes)).sum ∧
    getTotalRequests (exec st0 ops).2 = (exec st0 ops).1.length := by
  have h0 : st0.total_bytes_through = 0 ∧ st0.total_requests = 0 := by
    unfold create at h
    split at h
    · injection h with h
      subst h
      exact ⟨rfl, rfl⟩
    · exact Except.noConfusion h
  have he := exec_stats ops st0
  unfold getTotalBytesThrough getTotalRequests
  omega

/-- Closed instantiation of `c4_statistics_exact`: the spec's concrete
scenario (grant 100 immediately, enqueue 50, refill grants it). -/
theorem c4_statistics_exact_witness :
    create 1000 100000 10 0 = .ok sampleLimiter ∧
    (getTotalBytesThrough
        (exec sampleLimiter
          [Op.req 100 Priority.high, Op.req 50 Priority.high, Op.refill 100000]).2
      = ((exec sampleLimiter
          [Op.req 100 Priority.high, Op.req 50 Priority.high, Op.refill 100000]).1.map
            (·.bytes)).sum ∧
     getTotalRequests
        (exec sampleLimiter
          [Op.req 100 Priority.high, Op.req 50 Priority.high, Op.refill 100000]).2
      = (exec sampleLimiter
          [Op.req 100 Priority.high, Op.req 50 Priority.high, Op.refill 100000]).1.length) :=
  ⟨by rfl,
   c4_statistics_exact 1000 100000 10 0 sampleLimiter
     [Op.req 100 Priority.high, Op.req 50 Priority.high, Op.refill 100000] (by rfl)⟩

/-! ## C5: monotone counters -/

/-- C5: the statistics counters never decrease, across any single operation
(request, rate change, refill with its grants) and any run of operations. -/
theorem c5_counters_monotone (st : RateLimiter) (ops : List Op) :
    (∀ op : Op,
      st.total_bytes_through ≤ (step st op).2.total_bytes_through ∧
      st.total_requests ≤ (step st op).2.total_requests) ∧
    st.total_bytes_through ≤ (exec st ops).2.total_bytes_through ∧
    st.total_requests ≤ (exec st ops).2.total_requests := by
  refine ⟨fun op => ?_, ?_, ?_⟩
  · have := step_stats st op
    omega
  · have := exec_stats ops st
    omega
  · have := exec_stats ops st
    omega

/-! ## Refill-stage lemmas -/

theorem refillCarve_def (st : RateLimiter) :
    refillCarve st = carveOut (fairBoundary st) (refillAdvance st) st.queueLow := rfl

theorem refillHigh_def (st : RateLimiter) :
    refillHigh st = drainQueue (refillCarve st).2.2 st.queueHigh := rfl

theorem refillMedium_def (st : RateLimiter) :
    refillMedium st = drainQueue (refillHigh st).2.2 st.queueMedium := rfl

theorem refillLow_def (st : RateLimiter) :
    refillLow st = drainQueue (refillMedium st).2.2 (refillCarve st).2.1 := rfl

/-- The balance left by the drain stages never exceeds the advanced balance. -/
theorem refill_avail_le (st : RateLimiter) : (refillLow st).2.2 ≤ refillAdvance st := by
  have h1 : (refillLow st).2.2 ≤ (refillMedium st).2.2 := by
    rw [refillLow_def]
    exact drainQueue_le _ _
  have h2 : (refillMedium st).2.2 ≤ (refillHigh st).2.2 := by
    rw [refillMedium_def]
    exact drainQueue_le _ _
  have h3 : (refillHigh st).2.2 ≤ (refillCarve st).2.2 := by
    rw [refillHigh_def]
    exact drainQueue_le _ _
  have h4 : (refillCarve st).2.2 ≤ refillAdvance st := by
    rw [refillCarve_def]
    exact carveOut_le _ _ _
  omega

/-! ## C6: refill cap and rescheduling -/

/-- C6: a refill advances `available_bytes` by `refill_bytes_per_period`
(exactly, whenever that does not overflow one burst), never above one burst —
after the advance, and still after the whole refill step with its grants, the
balance is at most `GetSingleBurstBytes()` — and reschedules
`next_refill_time` to `now + refill_period_us`. -/
theorem c6_refill_cap (st : RateLimiter) (now : Int) :
    refillAdvance st ≤ getSingleBurstBytes st ∧
    (st.available_bytes + st.refill_bytes_per_period ≤ st.refill_bytes_per_period →
      refillAdvance st = st.available_bytes + st.refill_bytes_per_period) ∧
    (refillStep st now).2.next_refill_time = now + st.refill_period_us ∧
    (refillStep st now).2.available_bytes ≤ getSingleBurstBytes (refillStep st now).2 := by
  refine ⟨min_le_right _ _, fun h => min_eq_left h, by simp [refillStep, applyStats], ?_⟩
  have h1 : (refillStep st now).2.available_bytes = (refillLow st).2.2 := by
    simp [refillStep, applyStats]
  have h2 : getSingleBurstBytes (refillStep st now).2 = st.refill_bytes_per_period := by
    simp [refillStep, applyStats, getSingleBurstBytes]
  have h3 := refill_avail_le st
  have h4 : refillAdvance st ≤ st.refill_bytes_per_period := min_le_right _ _
  omega

/-- Closed instantiation of `c6_refill_cap` on a limiter carrying debt. -/
theorem c6_refill_cap_witness :
    refillAdvance { sampleLimiter with available_bytes := -50 }
      ≤ getSingleBurstBytes { sampleLimiter with available_bytes := -50 } ∧
    ({ sampleLimiter with available_bytes := -50 } : RateLimiter).available_bytes +
        ({ sampleLimiter with available_bytes := -50 } : RateLimiter).refill_bytes_per_period
      ≤ ({ sampleLimiter with available_bytes := -50 } : RateLimiter).refill_bytes_per_period ∧
    refillAdvance { sampleLimiter with available_bytes := -50 }
      = ({ sampleLimiter with available_bytes := -50 } : RateLimiter).available_bytes +
        ({ sampleLimiter with available_bytes := -50 } : RateLimiter).refill_bytes_per_period ∧
    (refillStep { sampleLimiter with available_bytes := -50 } 100000).2.next_refill_time
      = 100000 + ({ sampleLimiter with available_bytes := -50 } : RateLimiter).refill_period_us ∧
    (refillStep { sampleLimiter with available_bytes := -50 } 100000).2.available_bytes
      ≤ getSingleBurstBytes (refillStep { sampleLimiter with available_bytes := -50 } 100000).2 :=
  ⟨(c6_refill_cap { sampleLimiter with available_bytes := -50 } 100000).1,
   by decide,
   (c6_refill_cap { sampleLimiter with available_bytes := -50 } 100000).2.1 (by decide),
   (c6_refill_cap { sampleLimiter with available_bytes := -50 } 100000).2.2.1,
   (c6_refill_cap { sampleLimiter with available_bytes := -50 } 100000).2.2.2⟩

/-! ## C7: grants are full, exact and never partial -/

/-- Marking a grant does not change the requested bytes. -/
theorem bytes_sum_setGranted (g : List Waiter) :
    ((g.map setGranted).map (·.bytes)).sum = (g.map (·.bytes)).sum := by
  induction g with
  | nil => rfl
  | cons w ws ih =>
    simp only [List.map_cons, List.sum_cons]
    rw [ih]
    rfl

/-- The whole refill step decrements the advanced balance by exactly the sum
of the granted byte counts. -/
theorem refillStep_avail_eq (st : RateLimiter) (now : Int) :
    (refillStep st now).2.available_bytes
      = refillAdvance st - (((refillStep st now).1.map (·.bytes)).sum : Nat) := by
  obtain ⟨gc, _, hce, hca, _⟩ :=
    carveOut_eq (fairBoundary st) (refillAdvance st) st.queueLow
  obtain ⟨gh, _, hhe, hha⟩ := drainQueue_eq (refillCarve st).2.2 st.queueHigh
  obtain ⟨gm, _, hme, hma⟩ := drainQueue_eq (refillHigh st).2.2 st.queueMedium
  obtain ⟨gl, _, hle, hla⟩ := drainQueue_eq (refillMedium st).2.2 (refillCarve st).2.1
  rw [← refillCarve_def] at hce hca
  rw [← refillHigh_def] at hhe hha
  rw [← refillMedium_def] at hme hma
  rw [← refillLow_def] at hle hla
  have hav : (refillStep st now).2.available_bytes = (refillLow st).2.2 := by
    simp [refillStep, applyStats]
  have hev : (refillStep st now).1 = (refillCarve st).1 ++ (refillHigh st).1 ++
      (refillMedium st).1 ++ (refillLow st).1 := by
    simp [refillStep, refillEvents]
  rw [hav, hev, hce, hhe, hme, hle]
  simp only [List.map_append, List.sum_append, bytes_sum_setGranted]
  rw [hla, hma, hha, hca]
  push_cast
  ring

/-- C7: every grant is full and exact. Draining pops a front segment of the
queue, sets each popped waiter's `granted` flag, and decrements the balance by
exactly the full requested byte count of each grant (never a part of it); the
same holds for the fairness carve-out and for immediate grants inside
`Request`; a grant decided at a positive balance is never blocked by the debt
it creates (the balance may go negative, as in the closed example ending at
`-99`). -/
theorem c7_grants_are_full :
    (∀ (avail : Int) (q : List Waiter), ∃ g,
      q = g ++ (drainQueue avail q).2.1 ∧
      (drainQueue avail q).1 = g.map setGranted ∧
      (drainQueue avail q).2.2 = avail - ((g.map (·.bytes)).sum : Nat) ∧
      ∀ ev ∈ (drainQueue avail q).1, ev.granted = true) ∧
    (∀ (fair : Bool) (avail : Int) (q : List Waiter), ∃ g,
      q = g ++ (carveOut fair avail q).2.1 ∧
      (carveOut fair avail q).1 = g.map setGranted ∧
      (carveOut fair avail q).2.2 = avail - ((g.map (·.bytes)).sum : Nat) ∧
      ∀ ev ∈ (carveOut fair avail q).1, ev.granted = true) ∧
    (∀ (st : RateLimiter) (now : Int),
      (refillStep st now).2.available_bytes
        = refillAdvance st - (((refillStep st now).1.map (·.bytes)).sum : Nat)) ∧
    (∀ (st : RateLimiter) (bytes : Nat) (p : Priority) (evs : List Waiter)
        (st' : RateLimiter), request st bytes p = .ok (evs, st') →
      st'.available_bytes = st.available_bytes - ((evs.map (·.bytes)).sum : Nat) ∧
      ∀ ev ∈ evs, ev.granted = true) ∧
    drainQueue 1 [⟨0, 100, Priority.high, false⟩]
      = ([⟨0, 100, Priority.high, true⟩], [], -99) := by
  refine ⟨fun avail q => ?_, fun fair avail q => ?_, refillStep_avail_eq, ?_, by decide⟩
  · obtain ⟨g, h1, h2, h3⟩ := drainQueue_eq avail q
    refine ⟨g, h1, h2, h3, ?_⟩
    rw [h2]
    intro ev hev
    obtain ⟨w, _, rfl⟩ := List.mem_map.mp hev
    rfl
  · obtain ⟨g, h1, h2, h3, _⟩ := carveOut_eq fair avail q
    refine ⟨g, h1, h2, h3, ?_⟩
    rw [h2]
    intro ev hev
    obtain ⟨w, _, rfl⟩ := List.mem_map.mp hev
    rfl
  · intro st bytes p evs st' h
    by_cases h1 : getSingleBurstBytes st < (bytes : Int)
    · simp [request, h1] at h
    · by_cases h2 : (bytes : Int) ≤ st.available_bytes ∧ higherOrEqualQueuesEmpty st p = true
      · simp only [request, if_neg h1, if_pos h2] at h
        obtain ⟨he, hs⟩ := Prod.mk.injEq .. ▸ (Except.ok.inj h)
        subst he
        subst hs
        refine ⟨by simp [applyStats], ?_⟩
        intro ev hev
        simp only [List.mem_singleton] at hev
        subst hev
        rfl
      · simp only [request, if_neg h1, if_neg h2] at h
        obtain ⟨he, hs⟩ := Prod.mk.injEq .. ▸ (Except.ok.inj h)
        subst he
        subst hs
        have he2 := enqueue_fields
          { st with next_id := st.next_id + 1 }
          { id := st.next_id, bytes := bytes, priority := p, granted := false }
        exact ⟨by simp [he2.2.2.2.1], by simp⟩

/-- Closed instantiation of `c7_grants_are_full`: an immediate grant consumes
exactly its requested bytes and is marked granted. -/
theorem c7_grants_are_full_witness :
    request sampleLimiter 100 Priority.high
      = .ok ([⟨0, 100, Priority.high, true⟩],
        { sampleLimiter with
            available_bytes := 0
            next_id := 1
            total_bytes_through := 100
            total_requests := 1 }) ∧
    ({ sampleLimiter with
        available_bytes := 0
        next_id := 1
        total_bytes_through := 100
        total_requests := 1 } : RateLimiter).available_bytes
      = sampleLimiter.available_bytes
        - ((([(⟨0, 100, Priority.high, true⟩ : Waiter)].map (·.bytes)).sum : Nat) : Int) ∧
    ∀ ev ∈ [(⟨0, 100, Priority.high, true⟩ : Waiter)], ev.granted = true :=
  ⟨by rfl,
   (c7_grants_are_full.2.2.2.1 sampleLimiter 100 Priority.high
      [⟨0, 100, Priority.high, true⟩]
      { sampleLimiter with
          available_bytes := 0
          next_id := 1
          total_bytes_through := 100
          total_requests := 1 } (by rfl)).1,
   (c7_grants_are_full.2.2.2.1 sampleLimiter 100 Priority.high
      [⟨0, 100, Priority.high, true⟩]
      { sampleLimiter with
          available_bytes := 0
          next_id := 1
          total_bytes_through := 100
          total_requests := 1 } (by rfl)).2⟩

/-! ## C8: FIFO within a priority level, priority order across levels -/

/-- The enqueue-order ids of a waiter list. -/
def idsOf (l : List Waiter) : List Nat := l.map (·.id)

/-- The grants of one priority level, in grant order. -/
def grantsOf (p : Priority) (evs : List Waiter) : List Waiter :=
  evs.filter (fun w => w.priority == p)

/-- Every queued waiter is in the queue of its own priority. -/
def Tagged (st : RateLimiter) : Prop :=
  ∀ p, ∀ w ∈ queueOf st p, w.priority = p

/-- The FIFO invariant for one priority level: the ids of the already-granted
requests (`acc`) followed by the queued waiters' ids are strictly increasing,
and all of them are below the next fresh id. -/
def FifoOk (st : RateLimiter) (p : Priority) (acc : List Nat) : Prop :=
  (acc ++ idsOf (queueOf st p)).Pairwise (· < ·) ∧
  ∀ i ∈ acc ++ idsOf (queueOf st p), i < st.next_id

theorem idsOf_append (a b : List Waiter) : idsOf (a ++ b) = idsOf a ++ idsOf b :=
  List.map_append _ a b

theorem idsOf_setGranted (g : List Waiter) : idsOf (g.map setGranted) = idsOf g := by
  induction g with
  | nil => rfl
  | cons w ws ih =>
    simp only [List.map_cons, idsOf, List.map_cons] at ih ⊢
    rw [show (setGranted w).id = w.id from rfl]
    exact congrArg _ ih

theorem grantsOf_append (p : Priority) (a b : List Waiter) :
    grantsOf p (a ++ b) = grantsOf p a ++ grantsOf p b :=
  List.filter_append a b

/-- A list of waiters all of priority `p` is kept whole by `grantsOf p`. -/
theorem grantsOf_all (p : Priority) (l : List Waiter) (h : ∀ w ∈ l, w.priority = p) :
    grantsOf p l = l := by
  apply List.filter_eq_self.mpr
  intro w hw
  simp [h w hw]

/-- A list of waiters all of a different priority is dropped by `grantsOf p`. -/
theorem grantsOf_none (p q : Priority) (l : List Waiter) (h : ∀ w ∈ l, w.priority = q)
    (hne : q ≠ p) : grantsOf p l = [] := by
  apply List.filter_eq_nil_iff.mpr
  intro w hw
  simp [h w hw, hne]

/-- Marked grants keep their priorities. -/
theorem priority_mem_setGranted (g : List Waiter) (p : Priority)
    (h : ∀ w ∈ g, w.priority = p) : ∀ w ∈ g.map setGranted, w.priority = p := by
  intro w hw
  obtain ⟨x, hx, rfl⟩ := List.mem_map.mp hw
  exact h x hx

/-- Two states with the same queue fields have the same queues at every level. -/
theorem queueOf_eq_of_fields (a b : RateLimiter) (h1 : a.queueHigh = b.queueHigh)
    (h2 : a.queueMedium = b.queueMedium) (h3 : a.queueLow = b.queueLow) (p : Priority) :
    queueOf a p = queueOf b p := by
  cases p <;> simp [queueOf, h1, h2, h3]

/-- An immediate grant of priority `p` is only possible with the `p` queue empty. -/
theorem queueOf_empty_of_hoe (st : RateLimiter) (p : Priority)
    (h : higherOrEqualQueuesEmpty st p = true) : queueOf st p = [] := by
  cases p <;>
    simp only [higherOrEqualQueuesEmpty, Bool.and_eq_true, List.isEmpty_iff] at h <;>
    simp [queueOf, h]

/-- Case analysis of a `req` step: synchronous failure, immediate grant, or
enqueue. -/
theorem step_req_cases (st : RateLimiter) (bytes : Nat) (p0 : Priority) :
    (getSingleBurstBytes st < (bytes : Int) ∧ step st (.req bytes p0) = ([], st)) ∨
    (¬getSingleBurstBytes st < (bytes : Int) ∧
      ((bytes : Int) ≤ st.available_bytes ∧ higherOrEqualQueuesEmpty st p0 = true) ∧
      step st (.req bytes p0) = ([⟨st.next_id, bytes, p0, true⟩],
        applyStats
          { st with
            available_bytes := st.available_bytes - (bytes : Int)
            next_id := st.next_id + 1 } [⟨st.next_id, bytes, p0, true⟩])) ∨
    (¬getSingleBurstBytes st < (bytes : Int) ∧
      ¬((bytes : Int) ≤ st.available_bytes ∧ higherOrEqualQueuesEmpty st p0 = true) ∧
      step st (.req bytes p0) = ([],
        enqueue { st with next_id := st.next_id + 1 } ⟨st.next_id, bytes, p0, false⟩)) := by
  by_cases h1 : getSingleBurstBytes st < (bytes : Int)
  · exact Or.inl ⟨h1, by simp [step, request, h1]⟩
  · by_cases h2 : (bytes : Int) ≤ st.available_bytes ∧ higherOrEqualQueuesEmpty st p0 = true
    · exact Or.inr (Or.inl ⟨h1, h2, by simp [step, request, h1, h2]⟩)
    · exact Or.inr (Or.inr ⟨h1, h2, by simp [step, request, h1, h2]⟩)

/-- A `setRate` step grants nothing and leaves queues, ids and the refill
counter untouched. -/
theorem step_setRate_eq (st : RateLimiter) (r : Int) :
    (step st (.setRate r)).1 = [] ∧
    (step st (.setRate r)).2.queueHigh = st.queueHigh ∧
    (step st (.setRate r)).2.queueMedium = st.queueMedium ∧
    (step st (.setRate r)).2.queueLow = st.queueLow ∧
    (step st (.setRate r)).2.next_id = st.next_id ∧
    (step st (.setRate r)).2.refill_count = st.refill_count ∧
    (step st (.setRate r)).2.fairness = st.fairness := by
  by_cases h : 0 < r <;> simp [step, setBytesPerSecond, h]

/-- The state fields of a refill step. -/
theorem refillStep_fields (st : RateLimiter) (now : Int) :
    (refillStep st now).1 = refillEvents st ∧
    (refillStep st now).2.queueHigh = (refillHigh st).2.1 ∧
    (refillStep st now).2.queueMedium = (refillMedium st).2.1 ∧
    (refillStep st now).2.queueLow = (refillLow st).2.1 ∧
    (refillStep st now).2.next_id = st.next_id ∧
    (refillStep st now).2.refill_count = st.refill_count + 1 ∧
    (refillStep st now).2.fairness = st.fairness ∧
    (refillStep st now).2.refill_bytes_per_period = st.refill_bytes_per_period ∧
    (refillStep st now).2.available_bytes = (refillLow st).2.2 := by
  simp [refillStep, applyStats]

/-- The decompositions of the three queues across one refill step. -/
theorem refill_decomp (st : RateLimiter) :
    ∃ gc gh gm gl,
      st.queueLow = gc ++ (refillCarve st).2.1 ∧ gc.length ≤ 1 ∧
      st.queueHigh = gh ++ (refillHigh st).2.1 ∧
      st.queueMedium = gm ++ (refillMedium st).2.1 ∧
      (refillCarve st).2.1 = gl ++ (refillLow st).2.1 ∧
      (refillCarve st).1 = gc.map setGranted ∧
      (refillHigh st).1 = gh.map setGranted ∧
      (refillMedium st).1 = gm.map setGranted ∧
      (refillLow st).1 = gl.map setGranted := by
  obtain ⟨gc, hcq, hce, _, hcl⟩ :=
    carveOut_eq (fairBoundary st) (refillAdvance st) st.queueLow
  obtain ⟨gh, hhq, hhe, _⟩ := drainQueue_eq (refillCarve st).2.2 st.queueHigh
  obtain ⟨gm, hmq, hme, _⟩ := drainQueue_eq (refillHigh st).2.2 st.queueMedium
  obtain ⟨gl, hlq, hle, _⟩ := drainQueue_eq (refillMedium st).2.2 (refillCarve st).2.1
  rw [← refillCarve_def] at hcq hce
  rw [← refillHigh_def] at hhq hhe
  rw [← refillMedium_def] at hmq hme
  rw [← refillLow_def] at hlq hle
  exact ⟨gc, gh, gm, gl, hcq, hcl, hhq, hmq, hlq, hce, hhe, hme, hle⟩

/-- `Tagged` is preserved by every step. -/
theorem tagged_step (st : RateLimiter) (op : Op) (ht : Tagged st) :
    Tagged (step st op).2 := by
  cases op with
  | req bytes p0 =>
    rcases step_req_cases st bytes p0 with ⟨_, he⟩ | ⟨_, _, he⟩ | ⟨_, _, he⟩
    · rw [he]
      exact ht
    · intro p w hw
      rw [queueOf_eq_of_fields (step st (.req bytes p0)).2 st
        (by rw [he]; rfl) (by rw [he]; rfl) (by rw [he]; rfl) p] at hw
      exact ht p w hw
    · intro p w hw
      have hq : queueOf (step st (.req bytes p0)).2 p =
          queueOf (enqueue { st with next_id := st.next_id + 1 }
            ⟨st.next_id, bytes, p0, false⟩) p := by
        rw [he]
      rw [hq, queueOf_enqueue] at hw
      by_cases hp : p0 = p
      · rw [if_pos hp] at hw
        rcases List.mem_append.mp hw with hw | hw
        · exact ht p w hw
        · rw [List.mem_singleton] at hw
          subst hw
          exact hp
      · rw [if_neg hp] at hw
        exact ht p w hw
  | setRate r =>
    intro p w hw
    have hs := step_setRate_eq st r
    rw [queueOf_eq_of_fields (step st (.setRate r)).2 st hs.2.1 hs.2.2.1 hs.2.2.2.1 p] at hw
    exact ht p w hw
  | refill now =>
    intro p w hw
    obtain ⟨gc, gh, gm, gl, hcq, _, hhq, hmq, hlq, _, _, _, _⟩ := refill_decomp st
    have hf := refillStep_fields st now
    cases p with
    | high =>
      have : w ∈ st.queueHigh := by
        rw [hhq]
        exact List.mem_append_right _ (by rw [← hf.2.1]; exact hw)
      exact ht .high w this
    | medium =>
      have : w ∈ st.queueMedium := by
        rw [hmq]
        exact List.mem_append_right _ (by rw [← hf.2.2.1]; exact hw)
      exact ht .medium w this
    | low =>
      have : w ∈ st.queueLow := by
        rw [hcq]
        refine List.mem_append_right _ ?_
        rw [hlq]
        exact List.mem_append_right _ (by rw [← hf.2.2.2.1]; exact hw)
      exact ht .low w this

/-- In a tagged state, the grants of one refill step at each priority are the
marked front segments of the corresponding queues. -/
theorem grantsOf_refillEvents (st : RateLimiter) (ht : Tagged st) :
    ∃ gc gh gm gl,
      st.queueLow = gc ++ (refillCarve st).2.1 ∧
      st.queueHigh = gh ++ (refillHigh st).2.1 ∧
      st.queueMedium = gm ++ (refillMedium st).2.1 ∧
      (refillCarve st).2.1 = gl ++ (refillLow st).2.1 ∧
      grantsOf .high (refillEvents st) = gh.map setGranted ∧
      grantsOf .medium (refillEvents st) = gm.map setGranted ∧
      grantsOf .low (refillEvents st) = (gc ++ gl).map setGranted := by
  obtain ⟨gc, gh, gm, gl, hcq, _, hhq, hmq, hlq, hce, hhe, hme, hle⟩ := refill_decomp st
  have hLow : ∀ w ∈ st.queueLow, w.priority = .low := ht .low
  have hgc : ∀ w ∈ gc, w.priority = .low := fun w hw =>
    hLow w (by rw [hcq]; exact List.mem_append_left _ hw)
  have hcrest : ∀ w ∈ (refillCarve st).2.1, w.priority = .low := fun w hw =>
    hLow w (by rw [hcq]; exact List.mem_append_right _ hw)
  have hgl : ∀ w ∈ gl, w.priority = .low := fun w hw =>
    hcrest w (by rw [hlq]; exact List.mem_append_left _ hw)
  have hgh : ∀ w ∈ gh, w.priority = .high := by
    intro w hw
    apply ht .high w
    show w ∈ st.queueHigh
    rw [hhq]
    exact List.mem_append_left _ hw
  have hgm : ∀ w ∈ gm, w.priority = .medium := by
    intro w hw
    apply ht .medium w
    show w ∈ st.queueMedium
    rw [hmq]
    exact List.mem_append_left _ hw
  refine ⟨gc, gh, gm, gl, hcq, hhq, hmq, hlq, ?_, ?_, ?_⟩
  · unfold refillEvents
    rw [hce, hhe, hme, hle, grantsOf_append, grantsOf_append, grantsOf_append,
      grantsOf_none _ .low _ (priority_mem_setGranted _ _ hgc) (by decide),
      grantsOf_all _ _ (priority_mem_setGranted _ _ hgh),
      grantsOf_none _ .medium _ (priority_mem_setGranted _ _ hgm) (by decide),
      grantsOf_none _ .low _ (priority_mem_setGranted _ _ hgl) (by decide)]
    simp
  · unfold refillEvents
    rw [hce, hhe, hme, hle, grantsOf_append, grantsOf_append, grantsOf_append,
      grantsOf_none _ .low _ (priority_mem_setGranted _ _ hgc) (by decide),
      grantsOf_none _ .high _ (priority_mem_setGranted _ _ hgh) (by decide),
      grantsOf_all _ _ (priority_mem_setGranted _ _ hgm),
      grantsOf_none _ .low _ (priority_mem_setGranted _ _ hgl) (by decide)]
    simp
  · unfold refillEvents
    rw [hce, hhe, hme, hle, grantsOf_append, grantsOf_append, grantsOf_append,
      grantsOf_all _ _ (priority_mem_setGranted _ _ hgc),
      grantsOf_none _ .high _ (priority_mem_setGranted _ _ hgh) (by decide),
      grantsOf_none _ .medium _ (priority_mem_setGranted _ _ hgm) (by decide),
      grantsOf_all _ _ (priority_mem_setGranted _ _ hgl)]
    simp

theorem grantsOf_nil (p : Priority) : grantsOf p [] = [] := rfl

theorem idsOf_nil : idsOf [] = [] := rfl

theorem idsOf_singleton (w : Waiter) : idsOf [w] = [w.id] := rfl

/-- One step preserves the per-priority FIFO invariant, extending the granted
prefix by the step's grants of that priority. -/
theorem fifo_step (st : RateLimiter) (op : Op) (p : Priority) (acc : List Nat)
    (ht : Tagged st) (h : FifoOk st p acc) :
    FifoOk (step st op).2 p (acc ++ idsOf (grantsOf p (step st op).1)) := by
  obtain ⟨hs, hb⟩ := h
  cases op with
  | setRate r =>
    have hq := step_setRate_eq st r
    have hqe : queueOf (step st (.setRate r)).2 p = queueOf st p :=
      queueOf_eq_of_fields _ _ hq.2.1 hq.2.2.1 hq.2.2.2.1 p
    refine ⟨?_, ?_⟩
    · simpa [hq.1, grantsOf, idsOf, hqe] using hs
    · intro i hi
      rw [hq.2.2.2.2.1]
      exact hb i (by simpa [hq.1, grantsOf, idsOf, hqe] using hi)
  | req bytes p0 =>
    rcases step_req_cases st bytes p0 with ⟨_, he⟩ | ⟨_, hcond, he⟩ | ⟨_, _, he⟩
    · have h1 : (step st (.req bytes p0)).1 = [] := by rw [he]
      have h2 : (step st (.req bytes p0)).2 = st := by rw [he]
      rw [h1, h2]
      refine ⟨?_, ?_⟩
      · simpa [grantsOf, idsOf] using hs
      · intro i hi
        exact hb i (by simpa [grantsOf, idsOf] using hi)
    · have h1 : (step st (.req bytes p0)).1 = [⟨st.next_id, bytes, p0, true⟩] := by rw [he]
      have h2 : (step st (.req bytes p0)).2 = applyStats
          { st with
            available_bytes := st.available_bytes - (bytes : Int)
            next_id := st.next_id + 1 } [⟨st.next_id, bytes, p0, true⟩] := by rw [he]
      have hqe : ∀ q, queueOf (applyStats
          { st with
            available_bytes := st.available_bytes - (bytes : Int)
            next_id := st.next_id + 1 } [⟨st.next_id, bytes, p0, true⟩]) q = queueOf st q :=
        fun q => queueOf_eq_of_fields _ _ rfl rfl rfl q
      rw [h1, h2]
      by_cases hp : p0 = p
      · subst hp
        have hempty : queueOf st p0 = [] := queueOf_empty_of_hoe st p0 hcond.2
        have hg : grantsOf p0 [(⟨st.next_id, bytes, p0, true⟩ : Waiter)]
            = [⟨st.next_id, bytes, p0, true⟩] := by
          apply grantsOf_all
          intro w hw
          rw [List.mem_singleton] at hw
          subst hw
          rfl
        have hacc : acc.Pairwise (· < ·) := by
          rw [hempty] at hs
          simpa [idsOf] using hs
        have haccb : ∀ i ∈ acc, i < st.next_id := by
          intro i hi
          apply hb i
          rw [hempty]
          simpa [idsOf] using hi
        refine ⟨?_, ?_⟩
        · rw [hg, hqe, hempty]
          simp only [idsOf, List.map, List.append_nil]
          apply List.pairwise_append.mpr
          refine ⟨hacc, List.pairwise_singleton _ _, ?_⟩
          intro a ha b hbmem
          rw [List.mem_singleton] at hbmem
          subst hbmem
          exact haccb a ha
        · intro i hi
          rw [hg, hqe, hempty] at hi
          simp only [idsOf, List.map, List.append_nil, List.mem_append,
            List.mem_singleton] at hi
          have hn : (applyStats
              { st with
                available_bytes := st.available_bytes - (bytes : Int)
                next_id := st.next_id + 1 } [(⟨st.next_id, bytes, p0, true⟩ : Waiter)]).next_id
              = st.next_id + 1 := rfl
          rw [hn]
          rcases hi with hi | rfl
          · exact Nat.lt_succ_of_lt (haccb i hi)
          · exact Nat.lt_succ_self _
      · have hg : grantsOf p [(⟨st.next_id, bytes, p0, true⟩ : Waiter)] = [] := by
          apply grantsOf_none p p0
          · intro w hw
            rw [List.mem_singleton] at hw
            subst hw
            rfl
          · exact hp
        refine ⟨?_, ?_⟩
        · simpa [hg, idsOf, hqe] using hs
        · intro i hi
          have hn : (applyStats
              { st with
                available_bytes := st.available_bytes - (bytes : Int)
                next_id := st.next_id + 1 } [(⟨st.next_id, bytes, p0, true⟩ : Waiter)]).next_id
              = st.next_id + 1 := rfl
          rw [hn]
          exact Nat.lt_succ_of_lt (hb i (by simpa [hg, idsOf, hqe] using hi))
    · have h1 : (step st (.req bytes p0)).1 = [] := by rw [he]
      have h2 : (step st (.req bytes p0)).2
          = enqueue { st with next_id := st.next_id + 1 } ⟨st.next_id, bytes, p0, false⟩ := by
        rw [he]
      have hqe : ∀ q, queueOf ({ st with next_id := st.next_id + 1 } : RateLimiter) q
          = queueOf st q := fun q => queueOf_eq_of_fields _ _ rfl rfl rfl q
      have hn : (enqueue { st with next_id := st.next_id + 1 }
          (⟨st.next_id, bytes, p0, false⟩ : Waiter)).next_id = st.next_id + 1 :=
        (enqueue_fields _ _).1
      rw [h1, h2, ]
      have hq := queueOf_enqueue { st with next_id := st.next_id + 1 }
        (⟨st.next_id, bytes, p0, false⟩ : Waiter) p
      by_cases hp : p0 = p
      · rw [if_pos hp, hqe] at hq
        refine ⟨?_, ?_⟩
        · rw [hq]
          simp only [grantsOf_nil, idsOf_nil, List.append_nil, idsOf_append,
            idsOf_singleton]
          rw [← List.append_assoc]
          apply List.pairwise_append.mpr
          refine ⟨hs, List.pairwise_singleton _ _, ?_⟩
          intro a ha b hbmem
          rw [List.mem_singleton] at hbmem
          subst hbmem
          exact hb a ha
        · intro i hi
          rw [hn]
          rw [hq] at hi
          simp only [grantsOf_nil, idsOf_nil, List.append_nil, idsOf_append,
            idsOf_singleton, List.mem_append, List.mem_singleton] at hi
          rcases hi with hi | hi | hi
          · exact Nat.lt_succ_of_lt (hb i (List.mem_append_left _ hi))
          · exact Nat.lt_succ_of_lt (hb i (List.mem_append_right _ hi))
          · rw [hi]
            exact Nat.lt_succ_self _
      · rw [if_neg hp, hqe] at hq
        refine ⟨?_, ?_⟩
        · rw [hq]
          simpa [grantsOf, idsOf] using hs
        · intro i hi
          rw [hn]
          rw [hq] at hi
          exact Nat.lt_succ_of_lt (hb i (by simpa [grantsOf, idsOf] using hi))
  | refill now =>
    have hstep : step st (.refill now) = refillStep st now := rfl
    rw [hstep]
    obtain ⟨gc, gh, gm, gl, hcq, hhq, hmq, hlq, hgrh, hgrm, hgrl⟩ :=
      grantsOf_refillEvents st ht
    have hf := refillStep_fields st now
    rw [hf.1]
    have hnid : (refillStep st now).2.next_id = st.next_id := hf.2.2.2.2.1
    cases p with
    | high =>
      have hque : queueOf (refillStep st now).2 .high = (refillHigh st).2.1 := hf.2.1
      have hsq : queueOf st .high = st.queueHigh := rfl
      rw [hsq, hhq, idsOf_append] at hs
      refine ⟨?_, ?_⟩
      · rw [hgrh, hque, idsOf_setGranted, List.append_assoc]
        exact hs
      · intro i hi
        rw [hnid]
        apply hb i
        rw [hsq, hhq, idsOf_append]
        rw [hgrh, hque, idsOf_setGranted, List.append_assoc] at hi
        exact hi
    | medium =>
      have hque : queueOf (refillStep st now).2 .medium = (refillMedium st).2.1 := hf.2.2.1
      have hsq : queueOf st .medium = st.queueMedium := rfl
      rw [hsq, hmq, idsOf_append] at hs
      refine ⟨?_, ?_⟩
      · rw [hgrm, hque, idsOf_setGranted, List.append_assoc]
        exact hs
      · intro i hi
        rw [hnid]
        apply hb i
        rw [hsq, hmq, idsOf_append]
        rw [hgrm, hque, idsOf_setGranted, List.append_assoc] at hi
        exact hi
    | low =>
      have hque : queueOf (refillStep st now).2 .low = (refillLow st).2.1 := hf.2.2.2.1
      have hsq : queueOf st .low = st.queueLow := rfl
      rw [hsq, hcq, hlq, idsOf_append, idsOf_append] at hs
      refine ⟨?_, ?_⟩
      · rw [hgrl, hque, idsOf_setGranted, idsOf_append]
        simpa [List.append_assoc] using hs
      · intro i hi
        rw [hnid]
        apply hb i
        rw [hsq, hcq, hlq, idsOf_append, idsOf_append]
        rw [hgrl, hque, idsOf_setGranted, idsOf_append] at hi
        simp only [List.append_assoc] at hi ⊢
        exact hi

/-- Any run preserves the per-priority FIFO invariant, accumulating the grants
of that priority in order. -/
theorem fifo_exec (ops : List Op) (st : RateLimiter) (p : Priority) (acc : List Nat)
    (ht : Tagged st) (h : FifoOk st p acc) :
    FifoOk (exec st ops).2 p (acc ++ idsOf (grantsOf p (exec st ops).1)) := by
  induction ops generalizing st acc with
  | nil => simpa [exec, grantsOf_nil, idsOf_nil] using h
  | cons op ops ih =>
    have h2 := ih (step st op).2 (acc ++ idsOf (grantsOf p (step st op).1))
      (tagged_step st op ht) (fifo_step st op p acc ht h)
    have hx : (exec st (op :: ops)).1 = (step st op).1 ++ (exec (step st op).2 ops).1 := by
      simp [exec]
    have hx2 : (exec st (op :: ops)).2 = (exec (step st op).2 ops).2 := by
      simp [exec]
    rw [hx, hx2, grantsOf_append, idsOf_append, ← List.append_assoc]
    exact h2

/-- C8: within a single priority level grants are strictly FIFO (their
enqueue-order ids come out strictly increasing over any run from a fresh
limiter); within one refill step the grants are the fairness carve-out (at
most one LOW waiter) followed by grants from the HIGH queue, then the MEDIUM
queue, then the LOW queue; and no global FIFO holds across priorities: in the
closed run below the HIGH request with id 2, enqueued after the LOW request
with id 1, is granted before it. -/
theorem c8_priority_ordering :
    (∀ (rate refill_period fair now : Int) (st0 : RateLimiter) (ops : List Op),
      create rate refill_period fair now = .ok st0 →
      ∀ p, (idsOf (grantsOf p (exec st0 ops).1)).Pairwise (· < ·)) ∧
    (∀ (st : RateLimiter) (now : Int),
      ∃ gc gh gm gl,
        st.queueLow = gc ++ (refillCarve st).2.1 ∧ gc.length ≤ 1 ∧
        st.queueHigh = gh ++ (refillHigh st).2.1 ∧
        st.queueMedium = gm ++ (refillMedium st).2.1 ∧
        (refillCarve st).2.1 = gl ++ (refillLow st).2.1 ∧
        (refillStep st now).1 = gc.map setGranted ++ gh.map setGranted
          ++ gm.map setGranted ++ gl.map setGranted) ∧
    (exec exInit [Op.req 2 Priority.high, Op.req 1 Priority.low, Op.req 2 Priority.high,
        Op.refill 5, Op.refill 6]).1.map (fun w => (w.id, w.priority))
      = [(0, Priority.high), (2, Priority.high), (1, Priority.low)] := by
  refine ⟨?_, ?_, by decide⟩
  · intro rate rp fair now st0 ops h p
    have hst0 : st0.queueHigh = [] ∧ st0.queueMedium = [] ∧ st0.queueLow = []
        ∧ st0.next_id = 0 := by
      unfold create at h
      split at h
      · injection h with h
        subst h
        exact ⟨rfl, rfl, rfl, rfl⟩
      · exact Except.noConfusion h
    have hqe : ∀ q, queueOf st0 q = [] := by
      intro q
      cases q
      · exact hst0.2.2.1
      · exact hst0.2.1
      · exact hst0.1
    have ht : Tagged st0 := by
      intro q w hw
      rw [hqe q] at hw
      exact absurd hw (List.not_mem_nil w)
    have h0 : FifoOk st0 p [] := by
      refine ⟨?_, ?_⟩
      · rw [hqe p]
        simp [idsOf_nil]
      · intro i hi
        rw [hqe p] at hi
        simp [idsOf_nil] at hi
    obtain ⟨hp1, _⟩ := fifo_exec ops st0 p [] ht h0
    simp only [List.nil_append] at hp1
    exact (List.pairwise_append.mp hp1).1
  · intro st now
    obtain ⟨gc, gh, gm, gl, hcq, hcl, hhq, hmq, hlq, hce, hhe, hme, hle⟩ := refill_decomp st
    refine ⟨gc, gh, gm, gl, hcq, hcl, hhq, hmq, hlq, ?_⟩
    rw [show (refillStep st now).1 = refillEvents st from rfl]
    unfold refillEvents
    rw [hce, hhe, hme, hle]

/-- Closed instantiation of `c8_priority_ordering`. -/
theorem c8_priority_ordering_witness :
    create 2000000 1 2 0 = .ok exInit ∧
    ∀ p, (idsOf (grantsOf p (exec exInit [Op.req 2 Priority.high, Op.req 1 Priority.low,
      Op.req 2 Priority.high, Op.refill 5, Op.refill 6]).1)).Pairwise (· < ·) :=
  ⟨by rfl,
   c8_priority_ordering.1 2000000 1 2 0 exInit
     [Op.req 2 Priority.high, Op.req 1 Priority.low, Op.req 2 Priority.high,
      Op.refill 5, Op.refill 6] (by rfl)⟩

/-! ## C9: bounded LOW-priority starvation -/

/-- Every queued request fits within one burst. -/
def BytesBounded (st : RateLimiter) : Prop :=
  (∀ x ∈ st.queueHigh, (x.bytes : Int) ≤ st.refill_bytes_per_period) ∧
  (∀ x ∈ st.queueMedium, (x.bytes : Int) ≤ st.refill_bytes_per_period) ∧
  (∀ x ∈ st.queueLow, (x.bytes : Int) ≤ st.refill_bytes_per_period)

/-- The running invariant for the starvation bound: positive fairness weight,
positive burst, debt bounded by one burst, and burst-bounded queued requests. -/
def C9Inv (st : RateLimiter) : Prop :=
  0 < st.fairness ∧ 0 < st.refill_bytes_per_period ∧
  -st.refill_bytes_per_period < st.available_bytes ∧ BytesBounded st

def isRefill : Op → Bool
  | .refill _ => true
  | _ => false

def isSetRate : Op → Bool
  | .setRate _ => true
  | _ => false

/-- The number of refill cycles in a run. -/
def refillCount (ops : List Op) : Nat := (ops.filter isRefill).length

theorem succ_mod_of_ne_zero (c f : Nat) (hf : 0 < f) (h : (c + 1) % f ≠ 0) :
    (c + 1) % f = c % f + 1 := by
  rcases Nat.lt_or_ge 1 f with h2 | h2
  · have h1 : (c + 1) % f = (c % f + 1) % f := by
      rw [Nat.add_mod, Nat.mod_eq_of_lt h2]
    rcases Nat.lt_or_ge (c % f + 1) f with h3 | h3
    · rw [h1, Nat.mod_eq_of_lt h3]
    · exfalso
      have hlt : c % f < f := Nat.mod_lt _ hf
      have hq : c % f + 1 = f := by omega
      rw [h1, hq, Nat.mod_self] at h
      exact h rfl
  · exfalso
    have hq : f = 1 := by omega
    subst hq
    simp [Nat.mod_one] at h

/-- With positive burst and debt below one burst, the advanced balance is
positive. -/
theorem refillAdvance_pos (st : RateLimiter) (h1 : 0 < st.refill_bytes_per_period)
    (h2 : -st.refill_bytes_per_period < st.available_bytes) : 0 < refillAdvance st := by
  unfold refillAdvance
  exact lt_min (by omega) h1

/-- Enqueuing a burst-bounded request preserves `BytesBounded`. -/
theorem bytesBounded_enqueue (st : RateLimiter) (w : Waiter)
    (hb : BytesBounded st) (hw : (w.bytes : Int) ≤ st.refill_bytes_per_period) :
    BytesBounded (enqueue st w) := by
  obtain ⟨h1, h2, h3⟩ := hb
  have hsnoc : ∀ (l : List Waiter),
      (∀ x ∈ l, (x.bytes : Int) ≤ st.refill_bytes_per_period) →
      ∀ x ∈ l ++ [w], (x.bytes : Int) ≤ st.refill_bytes_per_period := by
    intro l hl x hx
    rcases List.mem_append.mp hx with hx | hx
    · exact hl x hx
    · rw [List.mem_singleton] at hx
      subst hx
      exact hw
  cases hp : w.priority with
  | high =>
    refine ⟨?_, ?_, ?_⟩ <;> simp only [enqueue, hp]
    · exact hsnoc _ h1
    · exact h2
    · exact h3
  | medium =>
    refine ⟨?_, ?_, ?_⟩ <;> simp only [enqueue, hp]
    · exact h1
    · exact hsnoc _ h2
    · exact h3
  | low =>
    refine ⟨?_, ?_, ?_⟩ <;> simp only [enqueue, hp]
    · exact h1
    · exact h2
    · exact hsnoc _ h3

/-- A refill step preserves the starvation invariant. -/
theorem c9inv_refill (st : RateLimiter) (now : Int) (h : C9Inv st) :
    C9Inv (refillStep st now).2 := by
  obtain ⟨hf, hbp, hav, hbb⟩ := h
  have hf2 := refillStep_fields st now
  obtain ⟨gc, gh, gm, gl, hcq, _, hhq, hmq, hlq, _, _, _, _⟩ := refill_decomp st
  have hpos : 0 < refillAdvance st := refillAdvance_pos st hbp hav
  have hbCrest : ∀ x ∈ (refillCarve st).2.1,
      (x.bytes : Int) ≤ st.refill_bytes_per_period := by
    intro x hx
    exact hbb.2.2 x (by rw [hcq]; exact List.mem_append_right _ hx)
  have h1 : -st.refill_bytes_per_period < (refillCarve st).2.2 := by
    rw [refillCarve_def]
    exact carveOut_lb _ _ _ _ hbb.2.2 (by omega)
  have h2 : -st.refill_bytes_per_period < (refillHigh st).2.2 := by
    rw [refillHigh_def]
    exact drainQueue_lb _ _ _ hbb.1 h1
  have h3 : -st.refill_bytes_per_period < (refillMedium st).2.2 := by
    rw [refillMedium_def]
    exact drainQueue_lb _ _ _ hbb.2.1 h2
  have h4 : -st.refill_bytes_per_period < (refillLow st).2.2 := by
    rw [refillLow_def]
    exact drainQueue_lb _ _ _ hbCrest h3
  refine ⟨?_, ?_, ?_, ?_, ?_, ?_⟩
  · rw [hf2.2.2.2.2.2.2.1]
    exact hf
  · rw [hf2.2.2.2.2.2.2.2.1]
    exact hbp
  · rw [hf2.2.2.2.2.2.2.2.1, hf2.2.2.2.2.2.2.2.2]
    exact h4
  · rw [hf2.2.1, hf2.2.2.2.2.2.2.2.1]
    intro x hx
    exact hbb.1 x (by rw [hhq]; exact List.mem_append_right _ hx)
  · rw [hf2.2.2.1, hf2.2.2.2.2.2.2.2.1]
    intro x hx
    exact hbb.2.1 x (by rw [hmq]; exact List.mem_append_right _ hx)
  · rw [hf2.2.2.2.1, hf2.2.2.2.2.2.2.2.1]
    intro x hx
    refine hbb.2.2 x ?_
    rw [hcq]
    refine List.mem_append_right _ ?_
    rw [hlq]
    exact List.mem_append_right _ hx

/-- Every non-`setRate` step preserves the starvation invariant, keeps the
fairness weight and the burst, and bumps the refill counter exactly on
refills. -/
theorem c9inv_step (st : RateLimiter) (op : Op) (hns : isSetRate op = false)
    (h : C9Inv st) :
    C9Inv (step st op).2 ∧
    (step st op).2.fairness = st.fairness ∧
    (step st op).2.refill_count
      = st.refill_count + (if isRefill op then 1 else 0) := by
  obtain ⟨hf, hbp, hav, hbb⟩ := h
  cases op with
  | req bytes p0 =>
    rcases step_req_cases st bytes p0 with ⟨_, he⟩ | ⟨hlarge, hcond, he⟩ | ⟨hlarge, _, he⟩
    · rw [he]
      exact ⟨⟨hf, hbp, hav, hbb⟩, rfl, by simp [isRefill]⟩
    · have h2 : (step st (.req bytes p0)).2 = applyStats
          { st with
            available_bytes := st.available_bytes - (bytes : Int)
            next_id := st.next_id + 1 } [⟨st.next_id, bytes, p0, true⟩] := by rw [he]
      rw [h2]
      refine ⟨⟨hf, hbp, ?_, hbb.1, hbb.2.1, hbb.2.2⟩, rfl, by simp [isRefill, applyStats]⟩
      show -st.refill_bytes_per_period < st.available_bytes - (bytes : Int)
      have := hcond.1
      omega
    · have h2 : (step st (.req bytes p0)).2
          = enqueue { st with next_id := st.next_id + 1 }
            ⟨st.next_id, bytes, p0, false⟩ := by rw [he]
      rw [h2]
      have hwb : ((bytes : Int))
          ≤ ({ st with next_id := st.next_id + 1 } : RateLimiter).refill_bytes_per_period := by
        show (bytes : Int) ≤ st.refill_bytes_per_period
        unfold getSingleBurstBytes at hlarge
        omega
      have hbb2 : BytesBounded (enqueue { st with next_id := st.next_id + 1 }
          (⟨st.next_id, bytes, p0, false⟩ : Waiter)) :=
        bytesBounded_enqueue _ _ ⟨hbb.1, hbb.2.1, hbb.2.2⟩ hwb
      have hef := enqueue_fields { st with next_id := st.next_id + 1 }
        (⟨st.next_id, bytes, p0, false⟩ : Waiter)
      refine ⟨⟨?_, ?_, ?_, hbb2⟩, ?_, ?_⟩
      · rw [hef.2.2.2.2.2.1]
        exact hf
      · rw [hef.2.2.2.2.1]
        exact hbp
      · rw [hef.2.2.2.2.1, hef.2.2.2.1]
        exact hav
      · rw [hef.2.2.2.2.2.1]
      · rw [hef.2.2.2.2.2.2]
        simp [isRefill]
  | setRate r => simp [isSetRate] at hns
  | refill now =>
    have hstep : step st (.refill now) = refillStep st now := rfl
    have hf2 := refillStep_fields st now
    rw [hstep]
    exact ⟨c9inv_refill st now ⟨hf, hbp, hav, hbb⟩,
      hf2.2.2.2.2.2.2.1, by rw [hf2.2.2.2.2.2.1]; simp [isRefill]⟩

/-- On a fairness boundary with a positive advanced balance, the refill's
carve-out grants the head of the LOW queue. -/
theorem low_head_boundary (st : RateLimiter) (now : Int) (w : Waiter) (t : List Waiter)
    (hq : st.queueLow = w :: t) (hfb : fairBoundary st = true)
    (hpos : 0 < refillAdvance st) :
    setGranted w ∈ (refillStep st now).1 := by
  have hcarve : (refillCarve st).1 = [setGranted w] := by
    unfold refillCarve
    rw [hq]
    simp [carveOut, hfb, hpos]
  show setGranted w ∈ refillEvents st
  unfold refillEvents
  refine List.mem_append_left _ (List.mem_append_left _ (List.mem_append_left _ ?_))
  rw [hcarve]
  exact List.mem_singleton.mpr rfl

/-- Across one non-`setRate` step, the head of the LOW queue is either granted
by that step or stays at the head of the LOW queue. -/
theorem low_head_step (st : RateLimiter) (op : Op) (w : Waiter) (t : List Waiter)
    (hns : isSetRate op = false) (hq : st.queueLow = w :: t) :
    setGranted w ∈ (step st op).1 ∨
    (∃ t', (step st op).2.queueLow = w :: t') := by
  cases op with
  | req bytes p0 =>
    rcases step_req_cases st bytes p0 with ⟨_, he⟩ | ⟨_, _, he⟩ | ⟨_, _, he⟩
    · right
      refine ⟨t, ?_⟩
      have h2 : (step st (.req bytes p0)).2 = st := by rw [he]
      rw [h2]
      exact hq
    · right
      refine ⟨t, ?_⟩
      have h2 : (step st (.req bytes p0)).2.queueLow = st.queueLow := by rw [he]; rfl
      rw [h2]
      exact hq
    · right
      have h2 : (step st (.req bytes p0)).2
          = enqueue { st with next_id := st.next_id + 1 }
            ⟨st.next_id, bytes, p0, false⟩ := by rw [he]
      cases p0 with
      | low =>
        refine ⟨t ++ [⟨st.next_id, bytes, Priority.low, false⟩], ?_⟩
        rw [h2]
        show st.queueLow ++ [(⟨st.next_id, bytes, Priority.low, false⟩ : Waiter)] = _
        rw [hq, List.cons_append]
      | medium =>
        refine ⟨t, ?_⟩
        rw [h2]
        show st.queueLow = w :: t
        exact hq
      | high =>
        refine ⟨t, ?_⟩
        rw [h2]
        show st.queueLow = w :: t
        exact hq
  | setRate r => simp [isSetRate] at hns
  | refill now =>
    have hstep : step st (.refill now) = refillStep st now := rfl
    rw [hstep]
    by_cases hc : fairBoundary st = true ∧ 0 < refillAdvance st
    · left
      exact low_head_boundary st now w t hq hc.1 hc.2
    · have hcarve : refillCarve st = ([], w :: t, refillAdvance st) := by
        unfold refillCarve
        rw [hq]
        simp only [carveOut, if_neg hc]
      by_cases hd : 0 < (refillMedium st).2.2
      · left
        have hl1 : (refillLow st).1
            = setGranted w :: (drainQueue ((refillMedium st).2.2 - (w.bytes : Int)) t).1 := by
          rw [refillLow_def, hcarve]
          simp [drainQueue, hd]
        show setGranted w ∈ refillEvents st
        unfold refillEvents
        refine List.mem_append_right _ ?_
        rw [hl1]
        exact List.mem_cons_self _ _
      · right
        refine ⟨t, ?_⟩
        have hl2 : (refillLow st).2.1 = w :: t := by
          rw [refillLow_def, hcarve]
          simp [drainQueue, hd]
        rw [(refillStep_fields st now).2.2.2.1, hl2]

/-- Head of the LOW queue is granted once the refill counter crosses the next
fairness boundary. -/
theorem low_head_granted (ops : List Op) (st : RateLimiter) (w : Waiter) (t : List Waiter)
    (hinv : C9Inv st) (hns : ∀ op ∈ ops, isSetRate op = false)
    (hq : st.queueLow = w :: t)
    (hd : st.fairness.toNat - st.refill_count % st.fairness.toNat ≤ refillCount ops) :
    setGranted w ∈ (exec st ops).1 := by
  induction ops generalizing st t with
  | nil =>
    exfalso
    have hfpos : 0 < st.fairness.toNat := by
      have := hinv.1
      omega
    have hlt : st.refill_count % st.fairness.toNat < st.fairness.toNat :=
      Nat.mod_lt _ hfpos
    have hz : refillCount ([] : List Op) = 0 := rfl
    omega
  | cons op ops ih =>
    have hns0 : isSetRate op = false := hns op (List.mem_cons_self _ _)
    have hnstail : ∀ o ∈ ops, isSetRate o = false := fun o ho =>
      hns o (List.mem_cons_of_mem _ ho)
    have hmem : (exec st (op :: ops)).1
        = (step st op).1 ++ (exec (step st op).2 ops).1 := by
      simp [exec]
    rcases low_head_step st op w t hns0 hq with hg | ⟨t', hq'⟩
    · rw [hmem]
      exact List.mem_append_left _ hg
    · obtain ⟨hinv', hfair', hcnt'⟩ := c9inv_step st op hns0 hinv
      cases op with
      | req bytes p0 =>
        rw [hmem]
        refine List.mem_append_right _
          (ih (step st (.req bytes p0)).2 t' hinv' hnstail hq' ?_)
        have hcnt2 : (step st (.req bytes p0)).2.refill_count = st.refill_count := by
          rw [hcnt']
          simp [isRefill]
        have hrc : refillCount (Op.req bytes p0 :: ops) = refillCount ops := by
          simp [refillCount, isRefill]
        rw [hfair', hcnt2]
        rw [hrc] at hd
        exact hd
      | setRate r => simp [isSetRate] at hns0
      | refill now =>
        by_cases hfb : fairBoundary st = true
        · rw [hmem]
          refine List.mem_append_left _ ?_
          have hpos := refillAdvance_pos st hinv.2.1 hinv.2.2.1
          exact low_head_boundary st now w t hq hfb hpos
        · rw [hmem]
          refine List.mem_append_right _
            (ih (step st (.refill now)).2 t' hinv' hnstail hq' ?_)
          have hfpos : 0 < st.fairness.toNat := by
            have := hinv.1
            omega
          have hnb : (st.refill_count + 1) % st.fairness.toNat ≠ 0 := by
            intro hzero
            apply hfb
            unfold fairBoundary
            simp [hzero]
          have hsucc := succ_mod_of_ne_zero st.refill_count st.fairness.toNat hfpos hnb
          have hcnt2 : (step st (.refill now)).2.refill_count = st.refill_count + 1 := by
            rw [hcnt']
            simp [isRefill]
          have hrc : refillCount (Op.refill now :: ops) = refillCount ops + 1 := by
            simp [refillCount, isRefill]
          rw [hfair', hcnt2, hsucc]
          rw [hrc] at hd
          have hlt : st.refill_count % st.fairness.toNat < st.fairness.toNat :=
            Nat.mod_lt _ hfpos
          omega

/-- C9: under any continuing load without rate changes (in particular under
continuous HIGH-priority pressure), once a run contains at least `fairness`
refill cycles, the waiting LOW-priority request at the head of the LOW queue
is granted during that run — the fairness carve-out bounds LOW starvation by
the fairness weight. -/
theorem c9_low_not_starved (st : RateLimiter) (ops : List Op) (w : Waiter)
    (t : List Waiter) (hinv : C9Inv st) (hns : ∀ op ∈ ops, isSetRate op = false)
    (hq : st.queueLow = w :: t) (hf : st.fairness.toNat ≤ refillCount ops) :
    setGranted w ∈ (exec st ops).1 := by
  apply low_head_granted ops st w t hinv hns hq
  have hfpos : 0 < st.fairness.toNat := by
    have := hinv.1
    omega
  have hlt : st.refill_count % st.fairness.toNat < st.fairness.toNat :=
    Nat.mod_lt _ hfpos
  omega

instance (st : RateLimiter) : Decidable (BytesBounded st) := by
  unfold BytesBounded
  infer_instance

instance (st : RateLimiter) : Decidable (C9Inv st) := by
  unfold C9Inv
  infer_instance

/-- The limiter of `exInit` after an immediate HIGH grant of one full burst
and the enqueue of a LOW request for one byte. -/
def c9SampleState : RateLimiter :=
  { rate_bytes_per_sec := 2000000
    refill_period_us := 1
    fairness := 2
    refill_bytes_per_period := 2
    available_bytes := 0
    next_refill_time := 1
    queueHigh := []
    queueMedium := []
    queueLow := [⟨1, 1, Priority.low, false⟩]
    total_bytes_through := 2
    total_requests := 1
    refill_count := 0
    next_id := 2 }

/-- Closed instantiation of `c9_low_not_starved`: under HIGH pressure (a
pending HIGH request), the queued LOW request is granted within
`fairness = 2` refill cycles. -/
theorem c9_low_not_starved_witness :
    C9Inv c9SampleState ∧
    (∀ op ∈ [Op.req 2 Priority.high, Op.refill 5, Op.refill 6],
      isSetRate op = false) ∧
    c9SampleState.queueLow = (⟨1, 1, Priority.low, false⟩ : Waiter) :: [] ∧
    c9SampleState.fairness.toNat
      ≤ refillCount [Op.req 2 Priority.high, Op.refill 5, Op.refill 6] ∧
    setGranted ⟨1, 1, Priority.low, false⟩
      ∈ (exec c9SampleState [Op.req 2 Priority.high, Op.refill 5, Op.refill 6]).1 :=
  ⟨by decide, by decide, by decide, by decide,
   c9_low_not_starved c9SampleState
     [Op.req 2 Priority.high, Op.refill 5, Op.refill 6]
     ⟨1, 1, Priority.low, false⟩ [] (by decide) (by decide) (by decide) (by decide)⟩
